import Mathlib

/-!
Verification of the stm32 bootloader client (src/src/main.rs).

The client talks to a device bootloader over TCP using the postcard
binary codec: serde-derived enums are encoded as a varint discriminant
followed by the fields, `u32` fields as unsigned LEB128 varints and
byte slices as a varint length followed by the raw bytes.  The model
below embeds, byte for byte, the encoding the client produces with
`postcard::to_stdvec` and the decoding `postcard::from_bytes` applies
to reply buffers, and embeds the flash-programming sequencer
(`send_program_request`, `erase_flash`, `write_flash`, `get_reply`)
as pure functions over an explicit network environment, recording the
trace of commands sent and replies received.
-/

set_option linter.unusedVariables false

namespace Stm32

/-! ## Postcard wire primitives -/

/-- Structural worker for the varint encoder.  The recursion is on
`fuel`; every call keeps the invariant `n ≤ fuel`, under which the
out-of-fuel branch is reached only with `n = 0`, where `[n % 128]`
equals the correct `[0]`. -/
def encVarintFuel : Nat → Nat → List Nat
  | 0, n => [n % 128]
  | fuel + 1, n =>
    if n < 128 then [n] else (n % 128 + 128) :: encVarintFuel fuel (n / 128)

/-- Unsigned LEB128 varint encoding, as postcard encodes `u32` values
and sequence lengths: seven payload bits per byte, least significant
group first, high bit set on every byte except the last. -/
def encVarint (n : Nat) : List Nat :=
  encVarintFuel n n

/-- Varint decoding: returns the decoded value and the remaining bytes,
or `none` on truncated input. -/
def decVarint : List Nat → Option (Nat × List Nat)
  | [] => none
  | b :: rest =>
    if b < 128 then some (b, rest)
    else
      match decVarint rest with
      | some (m, r) => some (b - 128 + 128 * m, r)
      | none => none

/-- Length-prefixed byte string, as postcard encodes a `&[u8]` field:
the length as a varint, then the bytes themselves. -/
def encBytes (b : List Nat) : List Nat :=
  encVarint b.length ++ b

/-- Decodes a length-prefixed byte string, returning the bytes and the
remaining input, or `none` when the input is shorter than the declared
length. -/
def decBytes (l : List Nat) : Option (List Nat × List Nat) :=
  match decVarint l with
  | none => none
  | some (n, r) => if n ≤ r.length then some (r.take n, r.drop n) else none

/-! ## Message types

`Command` mirrors the client's `enum Command<'a>`: `Write` carries the
sector as a byte slice (the client passes `sector.to_le_bytes()`) and
the chunk data.  `BootloadError` mirrors the reply enum.  Rust `u32`
and `u8` values are modelled as `Nat` with explicit bounds where the
codec depends on them. -/

inductive Command where
  | Info
  | Read
  | Erase (address length : Nat)
  | Write (sector data : List Nat)
  | Boot
deriving DecidableEq, Repr

inductive BootloadError where
  | Success
  | InvalidAddress
  | LengthNotMultiple32
  | LengthTooLong
  | DataLengthIncorrect
  | EraseError
  | WriteError
  | FlashError
  | NetworkError
  | InternalError
  | PartialWriteSuccess (n : Nat)
deriving DecidableEq, Repr

/-- Tag of each command variant: its serde variant index, which
postcard encodes as the leading varint of the message. -/
def Command.tag : Command → Nat
  | .Info => 0
  | .Read => 1
  | .Erase _ _ => 2
  | .Write _ _ => 3
  | .Boot => 4

/-- Postcard encoding of a `Command`, as produced by
`postcard::to_stdvec`: variant index, then each field (`u32` as
varint, `&[u8]` as varint length plus raw bytes). -/
def encCommand : Command → List Nat
  | .Info => [0]
  | .Read => [1]
  | .Erase a l => 2 :: (encVarint a ++ encVarint l)
  | .Write s d => 3 :: (encBytes s ++ encBytes d)
  | .Boot => [4]

/-- Postcard decoding of a `Command`, returning the value and the
remaining bytes; `u32` fields are rejected when the varint exceeds
the `u32` range, as postcard's deserializer does. -/
def decCommandCore (l : List Nat) : Option (Command × List Nat) :=
  match decVarint l with
  | none => none
  | some (t, r) =>
    if t = 0 then some (.Info, r)
    else if t = 1 then some (.Read, r)
    else if t = 2 then
      match decVarint r with
      | none => none
      | some (a, r1) =>
        if a < 2 ^ 32 then
          match decVarint r1 with
          | none => none
          | some (ln, r2) => if ln < 2 ^ 32 then some (.Erase a ln, r2) else none
        else none
    else if t = 3 then
      match decBytes r with
      | none => none
      | some (s, r1) =>
        match decBytes r1 with
        | none => none
        | some (d, r2) => some (.Write s d, r2)
    else if t = 4 then some (.Boot, r)
    else none

/-- Command decoding in the style of `postcard::from_bytes`: trailing
bytes after a complete message are ignored. -/
def decCommand (l : List Nat) : Option Command :=
  (decCommandCore l).map Prod.fst

/-- Postcard encoding of a reply (`BootloadError`): variant index as a
varint, and for `PartialWriteSuccess` the `u32` payload as a varint. -/
def encReply : BootloadError → List Nat
  | .Success => [0]
  | .InvalidAddress => [1]
  | .LengthNotMultiple32 => [2]
  | .LengthTooLong => [3]
  | .DataLengthIncorrect => [4]
  | .EraseError => [5]
  | .WriteError => [6]
  | .FlashError => [7]
  | .NetworkError => [8]
  | .InternalError => [9]
  | .PartialWriteSuccess n => 10 :: encVarint n

/-- Postcard decoding of a reply, returning the value and the
remaining bytes. -/
def decReplyCore (l : List Nat) : Option (BootloadError × List Nat) :=
  match decVarint l with
  | none => none
  | some (t, r) =>
    if t = 0 then some (.Success, r)
    else if t = 1 then some (.InvalidAddress, r)
    else if t = 2 then some (.LengthNotMultiple32, r)
    else if t = 3 then some (.LengthTooLong, r)
    else if t = 4 then some (.DataLengthIncorrect, r)
    else if t = 5 then some (.EraseError, r)
    else if t = 6 then some (.WriteError, r)
    else if t = 7 then some (.FlashError, r)
    else if t = 8 then some (.NetworkError, r)
    else if t = 9 then some (.InternalError, r)
    else if t = 10 then
      match decVarint r with
      | none => none
      | some (n, r1) => if n < 2 ^ 32 then some (.PartialWriteSuccess n, r1) else none
    else none

/-- Reply decoding in the style of `postcard::from_bytes`: trailing
bytes after a complete message are ignored, exactly as the client's
`get_reply` relies on when it decodes its fixed 256-byte buffer. -/
def decReply (l : List Nat) : Option BootloadError :=
  (decReplyCore l).map Prod.fst

/-- Well-formedness of a command as a Rust value: `u32` fields are in
range.  Byte-slice contents need no bound for the codec. -/
def wfCommand : Command → Bool
  | .Erase a l => decide (a < 2 ^ 32) && decide (l < 2 ^ 32)
  | _ => true

/-- Well-formedness of a reply as a Rust value: the
`PartialWriteSuccess` payload is a `u32`. -/
def wfReply : BootloadError → Bool
  | .PartialWriteSuccess n => decide (n < 2 ^ 32)
  | _ => true

/-! ## Transport and sequencer model

Socket effects are resolved by an explicit `Env`: whether each
`write_all` succeeds, and what bytes each `read` call returns
(`none` models an I/O error from `read`; `some bs` models a successful
read of the bytes `bs`, with `bs = []` for a connection that closed
before a reply arrived, since a TCP read on a closed connection
returns `Ok(0)`).  The sequencer functions mirror the client's
methods line by line and record the trace of commands sent and
reply results received. -/

/-- Little-endian bytes of a `u32`, as `u32::to_le_bytes` produces
for the `sector` field of a `Write` command. -/
def leBytes4 (n : Nat) : List Nat :=
  [n % 256, n / 256 % 256, n / 2 ^ 16 % 256, n / 2 ^ 24 % 256]

inductive IoErr where
  | readFailed
  | deserializeFailed
deriving DecidableEq, Repr

/-- Result of `get_reply`, mirroring `Result<BootloadError, std::io::Error>`. -/
inductive ReplyResult where
  | ok (r : BootloadError)
  | ioError (e : IoErr)
deriving DecidableEq, Repr

/-- Model of `Client::get_reply`: allocate a zero-filled 256-byte
buffer, issue one `read` (which fills a prefix of the buffer and
leaves the rest zero), then decode the whole buffer with
`postcard::from_bytes`, mapping a decode failure to an I/O error. -/
def get_reply (readRes : Option (List Nat)) : ReplyResult :=
  match readRes with
  | none => .ioError .readFailed
  | some bs =>
    let bs := bs.take 256
    let buf := bs ++ List.replicate (256 - bs.length) 0
    match decReply buf with
    | some r => .ok r
    | none => .ioError .deserializeFailed

/-- One observable step of a run: a command written to the socket, or
a reply result obtained from `get_reply`. -/
inductive Event where
  | sent (c : Command)
  | received (r : ReplyResult)
deriving DecidableEq, Repr

inductive Outcome where
  | ok
  | ioError
  | panicked
deriving DecidableEq, Repr

/-- Network environment of one run: whether the erase-command send
succeeds, the bytes read for the erase reply, and per write index
whether that send succeeds and the bytes read for its reply. -/
structure Env where
  eraseSendOk : Bool
  eraseRead : Option (List Nat)
  writeSendOk : Nat → Bool
  writeRead : Nat → Option (List Nat)

/-- Model of `Client::erase_flash`: send `Command::Erase { address,
length }`; if the send fails, return the error (`Bool` result `false`
models `Err`); otherwise fetch the reply, `Debug`-print it, discard
its value, and return `Ok(())`. -/
def erase_flash (address length : Nat) (sendOk : Bool) (readRes : Option (List Nat)) :
    List Event × Bool :=
  let c := Command.Erase address length
  if sendOk then
    ([.sent c, .received (get_reply readRes)], true)
  else
    ([.sent c], false)

/-- Model of `Client::write_flash`: build `Command::Write` with the
sector index as its 4 little-endian bytes, send it with
`write_all(..).unwrap()` (`Bool` result `false` models the panic on a
failed send); on success fetch the reply, print it, discard its
value, and return `Ok(())`. -/
def write_flash (sector : Nat) (data : List Nat) (sendOk : Bool)
    (readRes : Option (List Nat)) : List Event × Bool :=
  let c := Command.Write (leBytes4 sector) data
  if sendOk then
    ([.sent c, .received (get_reply readRes)], true)
  else
    ([.sent c], false)

/-- Structural worker for the chunk splitter.  The recursion is on
`fuel`; every call keeps the invariant `l.length ≤ fuel`, under which
the out-of-fuel branch with a nonempty list is unreachable (each step
consumes at least one element). -/
def chunksFuel (k : Nat) : Nat → List α → List (List α)
  | _, [] => []
  | 0, _ :: _ => []
  | fuel + 1, a :: rest =>
    ((a :: rest).take (k + 1)) :: chunksFuel k fuel ((a :: rest).drop (k + 1))

/-- Model of `slice::chunks` for positive chunk size `k + 1`: splits
a list into consecutive chunks of `k + 1` elements, the last chunk
possibly shorter. -/
def chunksPos (k : Nat) (l : List α) : List (List α) :=
  chunksFuel k l.length l

/-- Model of `slice::chunks`: Rust panics when the chunk size is zero
(`none` here); otherwise it yields the chunk list. -/
def sliceChunks (chunk_size : Nat) (l : List α) : Option (List (List α)) :=
  if chunk_size = 0 then none else some (chunksPos (chunk_size - 1) l)

/-- The padding step of `send_program_request`: `resize(len + padding,
0xFF)` where `padding` completes the length to the next multiple of
32 (zero when it already is one). -/
def padImage (binfile : List Nat) : List Nat :=
  let len := binfile.length
  let padding := if len % 32 = 0 then 0 else 32 - len % 32
  binfile ++ List.replicate padding 0xFF

/-- The write loop of `send_program_request`: for each segment in
order, starting at index 0, call `write_flash`; a failed send panics
(`unwrap`) and ends the run, and the reply value never influences the
loop. -/
def writeSegments (env : Env) : Nat → List (List Nat) → List Event × Outcome
  | _, [] => ([], .ok)
  | i, seg :: rest =>
    let step := write_flash i seg (env.writeSendOk i) (env.writeRead i)
    if step.2 then
      let next := writeSegments env (i + 1) rest
      (step.1 ++ next.1, next.2)
    else
      (step.1, .panicked)

/-- Model of `Client::send_program_request`: read the image (supplied
here as `binfile`), pad it with `0xFF` to a multiple of 32, split it
with `chunks(chunk_size)` (which panics at chunk size 0 before
anything is sent), erase with the hard-coded address `0x08010000` and
the unpadded length `len` (the `lma` argument is unused, as in the
source), propagate only a send failure from the erase, then run the
write loop. -/
def send_program_request (lma : Nat) (binfile : List Nat) (chunk_size : Nat)
    (env : Env) : List Event × Outcome :=
  let len := binfile.length
  let padded := padImage binfile
  match sliceChunks chunk_size padded with
  | none => ([], .panicked)
  | some segments =>
    let er := erase_flash 0x08010000 len env.eraseSendOk env.eraseRead
    if er.2 then
      let ws := writeSegments env 0 segments
      (er.1 ++ ws.1, ws.2)
    else
      (er.1, .ioError)

/-- The chunk payloads among the `Write` commands sent in a trace, in
order. -/
def writeData : Event → Option (List Nat)
  | .sent (.Write _ d) => some d
  | _ => none

/-- All `Write` payloads of a trace, in the order they were sent. -/
def writesOf (evs : List Event) : List (List Nat) :=
  evs.filterMap writeData

/-- An environment in which every send succeeds and every reply reads
back as the single success byte. -/
def envAllOk : Env where
  eraseSendOk := true
  eraseRead := some [0]
  writeSendOk := fun _ => true
  writeRead := fun _ => some [0]

/-- An environment in which the erase reply reads back as the
`EraseError` tag byte and everything else succeeds. -/
def envEraseFail : Env where
  eraseSendOk := true
  eraseRead := some [5]
  writeSendOk := fun _ => true
  writeRead := fun _ => some [0]

/-- An environment in which the reply to the first write (index 0)
reads back as the `WriteError` tag byte and everything else
succeeds. -/
def envWriteFail : Env where
  eraseSendOk := true
  eraseRead := some [0]
  writeSendOk := fun _ => true
  writeRead := fun j => if j = 0 then some [6] else some [0]

/-! ## Codec lemmas and theorems -/

theorem decVarint_cons_small {b : Nat} (h : b < 128) (rest : List Nat) :
    decVarint (b :: rest) = some (b, rest) := by
  simp [decVarint, h]

theorem decVarint_encVarintFuel (rest : List Nat) :
    ∀ fuel n : Nat, n ≤ fuel → decVarint (encVarintFuel fuel n ++ rest) = some (n, rest) := by
  intro fuel
  induction fuel with
  | zero =>
    intro n hn
    have hz : n = 0 := by omega
    subst hz
    simp [encVarintFuel, decVarint]
  | succ fuel ih =>
    intro n hn
    by_cases h : n < 128
    · simp [encVarintFuel, h, decVarint]
    · have hdiv : n / 128 < n := Nat.div_lt_self (by omega) (by omega)
      have hle : n / 128 ≤ fuel := by omega
      simp only [encVarintFuel, if_neg h, List.cons_append, decVarint,
        if_neg (by omega : ¬ n % 128 + 128 < 128), ih _ hle]
      have harith : n % 128 + 128 - 128 + 128 * (n / 128) = n := by omega
      rw [harith]

theorem decVarint_encVarint (n : Nat) (rest : List Nat) :
    decVarint (encVarint n ++ rest) = some (n, rest) :=
  decVarint_encVarintFuel rest n n le_rfl

theorem decBytes_encBytes (b rest : List Nat) :
    decBytes (encBytes b ++ rest) = some (b, rest) := by
  unfold encBytes decBytes
  rw [List.append_assoc, decVarint_encVarint]
  simp [List.take_left, List.drop_left]

theorem decVarint_encVarint_nil (n : Nat) : decVarint (encVarint n) = some (n, []) := by
  have h := decVarint_encVarint n []
  simpa using h

theorem decBytes_encBytes_nil (b : List Nat) : decBytes (encBytes b) = some (b, []) := by
  have h := decBytes_encBytes b []
  simpa using h

theorem decCommand_encCommand (c : Command) (h : wfCommand c = true) :
    decCommand (encCommand c) = some c := by
  cases c with
  | Info => rfl
  | Read => rfl
  | Boot => rfl
  | Erase a l =>
    simp only [wfCommand, Bool.and_eq_true, decide_eq_true_eq] at h
    simp [encCommand, decCommand, decCommandCore,
      decVarint_cons_small (show (2 : Nat) < 128 by norm_num),
      decVarint_encVarint, decVarint_encVarint_nil]
    exact ⟨by omega, by omega⟩
  | Write s d =>
    simp [encCommand, decCommand, decCommandCore,
      decVarint_cons_small (show (3 : Nat) < 128 by norm_num),
      decBytes_encBytes, decBytes_encBytes_nil]

theorem decReply_encReply (r : BootloadError) (h : wfReply r = true) :
    decReply (encReply r) = some r := by
  cases r with
  | PartialWriteSuccess n =>
    simp only [wfReply, decide_eq_true_eq] at h
    simp [encReply, decReply, decReplyCore,
      decVarint_cons_small (show (10 : Nat) < 128 by norm_num),
      decVarint_encVarint_nil]
    omega
  | _ => rfl

/-- C8: for every `Command` value and every `BootloadError` reply
variant — `PartialWriteSuccess n` for arbitrary `u32` payloads `n`
included — decoding the postcard encoding yields the original value:
`decode (encode x) = x`. -/
theorem codec_round_trip :
    (∀ c : Command, wfCommand c = true → decCommand (encCommand c) = some c) ∧
    (∀ r : BootloadError, wfReply r = true → decReply (encReply r) = some r) :=
  ⟨decCommand_encCommand, decReply_encReply⟩

/-- Witness for C8 at a concrete command and reply. -/
theorem codec_round_trip_witness :
    wfCommand (.Erase 5 300) = true ∧
    decCommand (encCommand (.Erase 5 300)) = some (.Erase 5 300) ∧
    wfReply (.PartialWriteSuccess 300) = true ∧
    decReply (encReply (.PartialWriteSuccess 300)) = some (.PartialWriteSuccess 300) :=
  ⟨by decide, codec_round_trip.1 _ (by decide), by decide,
    codec_round_trip.2 _ (by decide)⟩

/-! ## Sequencer theorems -/

/-- C5 (code bug): when the connection closes before a reply arrives,
`read` returns `Ok(0)`, the 256-byte buffer stays all zeros, and
`get_reply` decodes it as the `Success` reply instead of failing with
a closed-connection error. -/
theorem closed_connection_reads_success :
    get_reply (some []) = .ok .Success := by
  rfl

/-- C1 (code bug): run on a 1-byte image with the erase reply decoding
to `EraseError`; `erase_flash` prints and discards the reply, so a
`Write` command is still sent afterwards, and the run ends in
`Outcome.ok`. -/
theorem erase_failure_still_writes :
    send_program_request 0x08010000 [0] 512 envEraseFail =
      ([.sent (.Erase 0x08010000 1),
        .received (.ok .EraseError),
        .sent (.Write [0, 0, 0, 0] (0 :: List.replicate 31 255)),
        .received (.ok .Success)], .ok) := by
  rfl

/-- C2 (code bug): run with `lma = 0` on a 40-byte image: the erase
command sent carries the hard-coded address `0x08010000` (not the
load address 0) and the unpadded length 40 (not the padded length
64). -/
theorem erase_uses_fixed_address_and_unpadded_length :
    (send_program_request 0 (List.replicate 40 1) 512 envAllOk).1.head? =
      some (.sent (.Erase 0x08010000 40)) ∧
    (padImage (List.replicate 40 1)).length = 64 ∧
    (40 : Nat) ≠ 64 ∧ (0x08010000 : Nat) ≠ 0 := by
  refine ⟨rfl, rfl, by decide, by decide⟩

/-- C3 (code bug): run on a 33-byte image with chunk size 32 where the
reply to the first write (index 0) decodes to `WriteError`;
`write_flash` prints and discards the reply, so the write with index
1 is still sent and the run ends in `Outcome.ok`. -/
theorem write_failure_does_not_abort :
    send_program_request 0x08010000 (List.replicate 33 7) 32 envWriteFail =
      ([.sent (.Erase 0x08010000 33),
        .received (.ok .Success),
        .sent (.Write [0, 0, 0, 0] (List.replicate 32 7)),
        .received (.ok .WriteError),
        .sent (.Write [1, 0, 0, 0] (7 :: List.replicate 31 255)),
        .received (.ok .Success)], .ok) := by
  rfl

/-- C4 (code bug): a non-success decoded reply does not make
`erase_flash` or `write_flash` return an error: both receive the
error variant (`EraseError`, respectively `PartialWriteSuccess 7`)
and still return `Ok(())` (second component `true`). -/
theorem nonsuccess_reply_returns_ok :
    get_reply (some [5]) = .ok .EraseError ∧
    erase_flash 0x08010000 1024 true (some [5]) =
      ([.sent (.Erase 0x08010000 1024), .received (.ok .EraseError)], true) ∧
    get_reply (some [10, 7]) = .ok (.PartialWriteSuccess 7) ∧
    write_flash 0 [1, 2, 3] true (some [10, 7]) =
      ([.sent (.Write [0, 0, 0, 0] [1, 2, 3]),
        .received (.ok (.PartialWriteSuccess 7))], true) := by
  exact ⟨rfl, rfl, rfl, rfl⟩

/-- C6: the padded image length is a multiple of 32, it is the least
multiple of 32 that is at least the image length, and every appended
padding byte equals `0xFF`. -/
theorem padding_correct (binfile : List Nat) :
    (padImage binfile).length % 32 = 0 ∧
    binfile.length ≤ (padImage binfile).length ∧
    (∀ m : Nat, binfile.length ≤ m → m % 32 = 0 → (padImage binfile).length ≤ m) ∧
    (∀ i : Nat, binfile.length ≤ i → i < (padImage binfile).length →
      (padImage binfile)[i]? = some 0xFF) := by
  have hlen : (padImage binfile).length =
      binfile.length +
        (if binfile.length % 32 = 0 then 0 else 32 - binfile.length % 32) := by
    simp [padImage]
  refine ⟨?_, ?_, ?_, ?_⟩
  · rw [hlen]
    by_cases h : binfile.length % 32 = 0
    · rw [if_pos h]; omega
    · rw [if_neg h]; omega
  · rw [hlen]; omega
  · intro m h1 h2
    rw [hlen]
    by_cases h : binfile.length % 32 = 0
    · rw [if_pos h]; omega
    · rw [if_neg h]; omega
  · intro i h1 h2
    rw [hlen] at h2
    have hr : (padImage binfile)[i]? =
        (List.replicate (if binfile.length % 32 = 0 then 0 else 32 - binfile.length % 32)
          0xFF)[i - binfile.length]? := by
      rw [padImage]
      exact List.getElem?_append_right h1
    rw [hr, List.getElem?_replicate, if_pos (by omega)]

/-- Witness for C6 on a 40-byte image: padded length 64, a multiple
of 32, and padding byte 63 equals `0xFF`. -/
theorem padding_correct_witness :
    (padImage (List.replicate 40 1)).length % 32 = 0 ∧
    (padImage (List.replicate 40 1))[63]? = some 0xFF :=
  ⟨(padding_correct (List.replicate 40 1)).1,
    (padding_correct (List.replicate 40 1)).2.2.2 63 (by decide) (by decide)⟩

theorem chunksFuel_nil (k fuel : Nat) : chunksFuel k fuel ([] : List α) = [] := by
  cases fuel <;> rfl

theorem chunksFuel_flatten (k : Nat) :
    ∀ (fuel : Nat) (l : List α), l.length ≤ fuel → (chunksFuel k fuel l).flatten = l := by
  intro fuel
  induction fuel with
  | zero =>
    intro l h
    have hz : l = [] := List.length_eq_zero.mp (by omega)
    subst hz
    simp [chunksFuel]
  | succ fuel ih =>
    intro l h
    cases l with
    | nil => simp [chunksFuel]
    | cons a rest =>
      have hlen : ((a :: rest).drop (k + 1)).length ≤ fuel := by
        simp only [List.length_drop, List.length_cons]
        simp only [List.length_cons] at h
        omega
      simp only [chunksFuel, List.flatten_cons, ih _ hlen, List.take_append_drop]

theorem chunksPos_flatten (k : Nat) (l : List α) : (chunksPos k l).flatten = l :=
  chunksFuel_flatten k l.length l le_rfl

theorem chunksFuel_dropLast (k : Nat) :
    ∀ (fuel : Nat) (l : List α), l.length ≤ fuel →
      ∀ c ∈ (chunksFuel k fuel l).dropLast, c.length = k + 1 := by
  intro fuel
  induction fuel with
  | zero =>
    intro l h c hc
    have hz : l = [] := List.length_eq_zero.mp (by omega)
    subst hz
    simp [chunksFuel] at hc
  | succ fuel ih =>
    intro l h c hc
    cases l with
    | nil => simp [chunksFuel] at hc
    | cons a rest =>
      simp only [chunksFuel] at hc
      have hlen : ((a :: rest).drop (k + 1)).length ≤ fuel := by
        simp only [List.length_drop, List.length_cons]
        simp only [List.length_cons] at h
        omega
      by_cases hrest : chunksFuel k fuel ((a :: rest).drop (k + 1)) = []
      · rw [hrest] at hc
        simp at hc
      · rw [List.dropLast_cons_of_ne_nil hrest, List.mem_cons] at hc
        have hne : (a :: rest).drop (k + 1) ≠ [] := by
          intro hdrop
          apply hrest
          rw [hdrop]
          exact chunksFuel_nil k fuel
        have hgt : ¬ (a :: rest).length ≤ k + 1 := fun hle =>
          hne (List.drop_eq_nil_iff.mpr hle)
        rcases hc with hc | hc
        · subst hc
          rw [List.length_take]
          simp only [List.length_cons] at hgt ⊢
          omega
        · exact ih _ hlen c hc

theorem chunksPos_dropLast_length (k : Nat) (l : List α) :
    ∀ c ∈ (chunksPos k l).dropLast, c.length = k + 1 :=
  chunksFuel_dropLast k l.length l le_rfl

theorem writesOf_writeSegments (env : Env) (hw : ∀ j, env.writeSendOk j = true) :
    ∀ (segs : List (List Nat)) (i : Nat), writesOf (writeSegments env i segs).1 = segs := by
  intro segs
  induction segs with
  | nil => intro i; simp [writeSegments, writesOf]
  | cons s rest ih =>
    intro i
    rw [writeSegments]
    simp only [write_flash, hw i, if_pos]
    rw [writesOf, List.filterMap_append]
    have hstep : List.filterMap writeData
        [Event.sent (.Write (leBytes4 i) s), Event.received (get_reply (env.writeRead i))] =
        [s] := by
      simp [List.filterMap, writeData]
    simpa [hstep, writesOf] using ih (i + 1)

/-- C7: for every image, every chunk size at least 1 and every
environment in which all sends succeed, the data of the `Write`
commands sent, concatenated in the order they were sent (sector
indices 0, 1, ...), reproduces the padded image exactly, and every
chunk except possibly the last has exactly `chunk_size` bytes. -/
theorem chunk_concatenation (binfile : List Nat) (chunk_size : Nat) (env : Env)
    (lma : Nat) (h1 : 1 ≤ chunk_size) (h2 : env.eraseSendOk = true)
    (h3 : ∀ j, env.writeSendOk j = true) :
    (writesOf (send_program_request lma binfile chunk_size env).1).flatten =
      padImage binfile ∧
    ∀ c ∈ (writesOf (send_program_request lma binfile chunk_size env).1).dropLast,
      c.length = chunk_size := by
  obtain ⟨m, rfl⟩ : ∃ m, chunk_size = m + 1 := ⟨chunk_size - 1, by omega⟩
  have hrun : (send_program_request lma binfile (m + 1) env).1 =
      [Event.sent (.Erase 0x08010000 binfile.length),
       Event.received (get_reply env.eraseRead)] ++
      (writeSegments env 0 (chunksPos m (padImage binfile))).1 := by
    rw [send_program_request]
    simp [sliceChunks, erase_flash, h2]
  have hw : writesOf (send_program_request lma binfile (m + 1) env).1 =
      chunksPos m (padImage binfile) := by
    rw [hrun, writesOf, List.filterMap_append]
    have hera : List.filterMap writeData
        [Event.sent (.Erase 0x08010000 binfile.length),
         Event.received (get_reply env.eraseRead)] = [] := by
      simp [List.filterMap, writeData]
    rw [hera]
    simpa [writesOf] using writesOf_writeSegments env h3 (chunksPos m (padImage binfile)) 0
  rw [hw]
  exact ⟨chunksPos_flatten m (padImage binfile), chunksPos_dropLast_length m (padImage binfile)⟩

/-- Witness for C7 on a 3-byte image with chunk size 2. -/
theorem chunk_concatenation_witness :
    (writesOf (send_program_request 0 [1, 2, 3] 2 envAllOk).1).flatten =
      padImage [1, 2, 3] ∧
    ∀ c ∈ (writesOf (send_program_request 0 [1, 2, 3] 2 envAllOk).1).dropLast,
      c.length = 2 :=
  chunk_concatenation [1, 2, 3] 2 envAllOk 0 (by decide) (by decide) (fun j => rfl)

/-- C9 counterexample: the `Erase` fields are not encoded as fixed
4-byte little-endian `u32` values: at `address = 300`, `length = 0`
the actual encoding is `[2, 172, 2, 0]` (varints), not the 9-byte
little-endian layout the claim describes. -/
theorem erase_encoding_not_fixed_le :
    encCommand (.Erase 300 0) ≠ 2 :: (leBytes4 300 ++ leBytes4 0) := by
  decide

/-- C9 amended: every encoded command begins with its stated tag
(Info 0, Read 1, Erase 2, Write 3, Boot 4); `Erase`'s address and
length follow as LEB128 varints (not fixed 4-byte little-endian
fields); and the write command built by `write_flash` carries the
sector index as a length-prefixed 4-byte little-endian byte string
followed by the length-prefixed data bytes. -/
theorem command_encoding_layout :
    (∀ c : Command, (encCommand c).head? = some c.tag) ∧
    (∀ a l : Nat, encCommand (.Erase a l) = 2 :: (encVarint a ++ encVarint l)) ∧
    (∀ (i : Nat) (d : List Nat),
      encCommand (.Write (leBytes4 i) d) =
        3 :: 4 :: (leBytes4 i ++ (encVarint d.length ++ d))) := by
  refine ⟨?_, fun a l => rfl, ?_⟩
  · intro c
    cases c <;> rfl
  · intro i d
    show 3 :: (encBytes (leBytes4 i) ++ encBytes d) = _
    rw [encBytes, encBytes]
    have h4 : encVarint (leBytes4 i).length = [4] := by
      rw [leBytes4]; rfl
    rw [h4]
    simp

/-- C10: with chunk size 0, `slice::chunks` panics before any command
is sent — the run aborts with an empty trace rather than returning an
error value — while every positive chunk size yields a chunk list. -/
theorem chunk_size_zero_panics (lma : Nat) (binfile : List Nat) (env : Env) :
    send_program_request lma binfile 0 env = ([], .panicked) ∧
    sliceChunks 0 (padImage binfile) = (none : Option (List (List Nat))) ∧
    (∀ k : Nat, 1 ≤ k → ∃ chs, sliceChunks k (padImage binfile) = some chs) := by
  refine ⟨?_, rfl, ?_⟩
  · rw [send_program_request]
    simp [sliceChunks]
  · intro k hk
    have hk0 : ¬ k = 0 := by omega
    exact ⟨chunksPos (k - 1) (padImage binfile), by simp [sliceChunks, hk0]⟩

/-- Witness for C10 at a 1-byte image: chunk size 0 panics with an
empty trace, chunk size 1 chunks successfully. -/
theorem chunk_size_zero_panics_witness :
    send_program_request 0 [1] 0 envAllOk = ([], .panicked) ∧
    ∃ chs, sliceChunks 1 (padImage [1]) = some chs :=
  ⟨(chunk_size_zero_panics 0 [1] envAllOk).1,
    (chunk_size_zero_panics 0 [1] envAllOk).2.2 1 (by decide)⟩

end Stm32
